import Mathlib

/-!
Verification development for the tide-table normalizer and coefficient-PDF
extractor of parse_tides.py. The Python source is shallowly embedded:
Python dicts become insertion-ordered association lists, Python string
operations are modelled by structurally recursive functions over the
underlying character lists, fallible operations (dict lookup, int/float
parsing, list indexing) return Option, and the while loop of the grouper is
expressed with an explicit fuel argument (the source loop advances its
cursor by 3 or 4 each iteration, so a fuel of the list length always
suffices; this is proved below).
-/

/-! ## Python primitive modelling -/

/-- Numeric value of a list of decimal digit characters, most significant
first, as computed by Python int() on a digit string. -/
def digitsToNat (l : List Char) : Nat := l.foldl (fun a c => a * 10 + (c.toNat - 48)) 0

/-- Python int(s) on a plain optionally-signed decimal string; None models
the ValueError raised on malformed input. Surrounding whitespace and
underscore separators, which never occur in this data, are not modelled. -/
def pyInt? (s : String) : Option Int :=
  match s.data with
  | [] => none
  | '-' :: rest => if !rest.isEmpty && rest.all Char.isDigit then some (-(digitsToNat rest : Int)) else none
  | '+' :: rest => if !rest.isEmpty && rest.all Char.isDigit then some ((digitsToNat rest : Int)) else none
  | l => if l.all Char.isDigit then some ((digitsToNat l : Int)) else none

/-- Python str.isnumeric() restricted to ASCII digits, the only characters
appearing in the day cells of the coefficient PDF. -/
def pyIsNumeric (s : String) : Bool := !s.data.isEmpty && s.data.all Char.isDigit

/-- Auxiliary accumulator-based splitter for Python str.split() with no
separator argument: splits on runs of whitespace and drops empty chunks. -/
def wsChunks : List Char → List Char → List (List Char)
  | [], acc => if acc.isEmpty then [] else [acc.reverse]
  | c :: cs, acc =>
    if c.isWhitespace then
      (if acc.isEmpty then wsChunks cs [] else acc.reverse :: wsChunks cs [])
    else wsChunks cs (c :: acc)

/-- Python cell.split() used on a PDF table cell. -/
def wsTokens (s : String) : List String := (wsChunks s.data []).map String.mk

/-- Python float(s) on a plain optionally-signed decimal literal; None
models the ValueError on malformed input. Exponent and infinity forms,
which never occur in coefficient tokens, are not modelled. -/
def pyFloat? (s : String) : Option Rat :=
  match s.data with
  | [] => none
  | l0 =>
    let signed : Rat × List Char :=
      match l0 with
      | '-' :: rest => (-1, rest)
      | '+' :: rest => (1, rest)
      | l => (1, l)
    let ip := signed.2.takeWhile (fun c => c ≠ '.')
    let rest := signed.2.dropWhile (fun c => c ≠ '.')
    match rest with
    | [] =>
      if !ip.isEmpty && ip.all Char.isDigit then some (signed.1 * (digitsToNat ip : Rat)) else none
    | _ :: fp =>
      if (!ip.isEmpty || !fp.isEmpty) && ip.all Char.isDigit && fp.all Char.isDigit then
        some (signed.1 * ((digitsToNat ip : Rat) + (digitsToNat fp : Rat) / ((10 : Rat) ^ fp.length)))
      else none

/-- Value registered for one token, modelling the source expression
float(coefficient_string) if coefficient_string else 0. The token appended
by the ragged-row repair is the falsy int 0 in the source, which that
expression also sends to the value 0, so both are modelled by the token
"0". -/
def pyVal? (s : String) : Option Rat := if s = "" then some 0 else pyFloat? s

/-! ## Data model of the tide pipeline -/

/-- One raw tide event as delivered by the upstream feed: calendar date
string (fecha), time-of-day string (hora), height (altura) and the
high/low marker (tipo). -/
structure TideEvent where
  fecha : String
  hora : String
  altura : Rat
  tipo : String
deriving DecidableEq, Inhabited

/-- One output tide as built by build_tide_json. -/
structure AnnotatedTide where
  meters : Rat
  time : String
  coefficient : Rat
  high_tide : Bool
deriving DecidableEq, Inhabited

/-- One day group of the output document, with the optional fourth tide. -/
structure TidesDay where
  first_tide : AnnotatedTide
  second_tide : AnnotatedTide
  third_tide : AnnotatedTide
  fourth_tide : Option AnnotatedTide
deriving DecidableEq, Inhabited

/-- The coefficients dict, date string to list of values, as an
insertion-ordered association list with unique keys. -/
abbrev CoeffMap := List (String × List Rat)

/-- Python dict lookup coefficients_map[key]; None models the KeyError on a
missing key. -/
def lookupCoeff : CoeffMap → String → Option (List Rat)
  | [], _ => none
  | (k, v) :: rest, key => if k = key then some v else lookupCoeff rest key

/-- Hour of a tide time string, modelling int(hora.split(":")[0]): the
prefix before the first colon, parsed as an int. -/
def pyHourOf (hora : String) : Option Int :=
  pyInt? (String.mk (hora.data.takeWhile (fun c => c ≠ ':')))

/-- Embedding of build_tide_json: builds one output tide from an event and
the coefficient entry for its date, choosing the first value for hours
below 12 and the second otherwise. -/
def build_tide_json (v : TideEvent) (coefficients : List Rat) : Option AnnotatedTide :=
  match pyHourOf v.hora with
  | none => none
  | some h =>
    match (if h < 12 then coefficients[0]? else coefficients[1]?) with
    | none => none
    | some c => some { meters := v.altura, time := v.hora, coefficient := c, high_tide := v.tipo == "pleamar" }

/-- Coefficient lookup followed by build_tide_json, the combination the
source applies to every consumed event. -/
def annotate (cmap : CoeffMap) (v : TideEvent) : Option AnnotatedTide :=
  match lookupCoeff cmap v.fecha with
  | none => none
  | some cs => build_tide_json v cs

/-- Embedding of build_tides_json_for_port_day: builds the day group
starting at the cursor, returning the emitted key, the group and the cursor
increment. -/
def build_tides_json_for_port_day (index : Nat) (values : List TideEvent) (cmap : CoeffMap) :
    Option (String × TidesDay × Nat) :=
  match values[index]?, values[index + 1]?, values[index + 2]? with
  | some v0, some v1, some v2 =>
    (match annotate cmap v0, annotate cmap v1, annotate cmap v2 with
     | some t0, some t1, some t2 =>
       (match values[index + 3]? with
        | some v3 =>
          if v3.fecha = v0.fecha then
            (match annotate cmap v3 with
             | some t3 => some (v0.fecha, ⟨t0, t1, t2, some t3⟩, 4)
             | none => none)
          else some (v0.fecha, ⟨t0, t1, t2, none⟩, 3)
        | none => some (v0.fecha, ⟨t0, t1, t2, none⟩, 3))
     | _, _, _ => none)
  | _, _, _ => none

/-- Fuel-indexed while loop of build_tides_json_for_port_month; emitted
(key, group) pairs are collected in order. Fuel exhaustion yields none and
is proved unreachable for fuel at least the list length. -/
def build_tides_loop (values : List TideEvent) (cmap : CoeffMap) (i : Nat) :
    Nat → Option (List (String × TidesDay))
  | 0 => if i + 2 < values.length then none else some []
  | fuel + 1 =>
    if i + 2 < values.length then
      match build_tides_json_for_port_day i values cmap with
      | none => none
      | some (key, day, inc) =>
        match build_tides_loop values cmap (i + inc) fuel with
        | none => none
        | some rest => some ((key, day) :: rest)
    else some []

/-- Embedding of build_tides_json_for_port_month: run the grouping loop
from cursor 0; the emitted entries are returned in emission order. -/
def build_tides_json_for_port_month (values : List TideEvent) (cmap : CoeffMap) :
    Option (List (String × TidesDay)) :=
  build_tides_loop values cmap 0 values.length

/-! ## Day-block structure used to state the grouping claims -/

/-- Calendar day of a block, the fecha of its first event. -/
def blockFecha (b : List TideEvent) : String :=
  match b with
  | [] => ""
  | e :: _ => e.fecha

/-- The tides of a group, in slot order. -/
def dayTidesList (d : TidesDay) : List AnnotatedTide :=
  match d.fourth_tide with
  | some t4 => [d.first_tide, d.second_tide, d.third_tide, t4]
  | none => [d.first_tide, d.second_tide, d.third_tide]

/-- Annotation of a list of events in order; none as soon as one fails. -/
def annotateAll (cmap : CoeffMap) : List TideEvent → Option (List AnnotatedTide)
  | [] => some []
  | v :: vs =>
    match annotate cmap v, annotateAll cmap vs with
    | some t, some ts => some (t :: ts)
    | _, _ => none

/-- Valid month shape assumed by the grouper: a sequence of day blocks of 3
or 4 events each, all events of a block sharing its calendar day, a 3-block
never followed immediately by an event of the same day, and a trailing
remainder of fewer than 3 events. Ascending timestamps with 3 or 4 events
per calendar day yield exactly this shape. -/
def ValidChunks : List (List TideEvent) → List TideEvent → Prop
  | [], rest => rest.length < 3
  | b :: bs, rest =>
    (∀ e ∈ b, e.fecha = blockFecha b) ∧
    (b.length = 4 ∨ (b.length = 3 ∧ ∀ e, (bs.flatten ++ rest).head? = some e → e.fecha ≠ blockFecha b)) ∧
    ValidChunks bs rest

/-- Expected result of the day builder on one whole block. -/
def dayResult (cmap : CoeffMap) (b : List TideEvent) : Option (String × TidesDay) :=
  match b with
  | [e0, e1, e2] =>
    (match annotate cmap e0, annotate cmap e1, annotate cmap e2 with
     | some t0, some t1, some t2 => some (e0.fecha, ⟨t0, t1, t2, none⟩)
     | _, _, _ => none)
  | [e0, e1, e2, e3] =>
    (match annotate cmap e0, annotate cmap e1, annotate cmap e2, annotate cmap e3 with
     | some t0, some t1, some t2, some t3 => some (e0.fecha, ⟨t0, t1, t2, some t3⟩)
     | _, _, _, _ => none)
  | _ => none

/-- Expected result of the whole grouping loop on a block sequence. -/
def chunksRun (cmap : CoeffMap) : List (List TideEvent) → Option (List (String × TidesDay))
  | [] => some []
  | b :: bs =>
    match dayResult cmap b, chunksRun cmap bs with
    | some p, some out => some (p :: out)
    | _, _ => none

/-! ## Coefficient-PDF extractor -/

/-- Zero-padded two-digit rendering, modelling the Python format specifier
02d for the month and day fields of a key. -/
def pad2 (n : Nat) : String := if n < 10 then "0" ++ toString n else toString n

/-- Key built by register_coefficients for a year, month and day. -/
def dateKey (year month day : Nat) : String :=
  toString year ++ "-" ++ pad2 month ++ "-" ++ pad2 day

/-- Python dict insertion or append used on coefficients_map: a fresh key
is appended with a singleton list, an existing key has the value appended
to its list. -/
def addCoeff : CoeffMap → String → Rat → CoeffMap
  | [], key, v => [(key, [v])]
  | (k, vs) :: rest, key, v =>
    if k = key then (k, vs ++ [v]) :: rest else (k, vs) :: addCoeff rest key v

/-- Embedding of register_coefficients: records one token value under the
current date key and advances the 2-slot month counter. Returns the updated
map, the counter and the month. -/
def register_coefficients (coefficient_string : String) (m : CoeffMap)
    (current_year month day num_traversed : Nat) : Option (CoeffMap × Nat × Nat) :=
  match pyVal? coefficient_string with
  | none => none
  | some value =>
    let m' := addCoeff m (dateKey current_year month day) value
    if 2 ≤ num_traversed + 1 then some (m', 0, month + 1) else some (m', num_traversed + 1, month)

/-- Sequential registration of a list of tokens, threading map, month and
counter, as done by the per-cell for loop of the row handler. -/
def registerTokens : List String → CoeffMap → Nat → Nat → Nat → Nat → Option (CoeffMap × Nat × Nat)
  | [], m, _, month, _, num => some (m, num, month)
  | t :: ts, m, year, month, day, num =>
    match register_coefficients t m year month day num with
    | none => none
    | some (m', num', month') => registerTokens ts m' year month' day num'

/-- Embedding of the per-cell body of handle_coefficients_pdf_row: an empty
cell registers a single implicit 0 token; otherwise the ragged-row repair
may add a 0 token when the cell is second to last and short, and every
token is registered in order. -/
def processCell (row : List String) (i : Nat) (cell : String) (m : CoeffMap)
    (year month day num : Nat) : Option (CoeffMap × Nat × Nat) :=
  let coefficients := wsTokens cell
  if coefficients.isEmpty then
    register_coefficients "0" m year month day num
  else
    let repaired :=
      if i = row.length - 2 ∧ coefficients.length < 2 then
        if row.getD (row.length - 1) "" = "" then coefficients ++ ["0"]
        else if row.getD (row.length - 3) "" = "" then "0" :: coefficients
        else coefficients
      else coefficients
    registerTokens repaired m year month day num

/-- Iteration over the indexed cells of a row, from cell index 1, as done
by the for loop of handle_coefficients_pdf_row. -/
def processCells (row : List String) : List (Nat × String) → CoeffMap → Nat → Nat → Nat → Nat →
    Option (CoeffMap × Nat × Nat)
  | [], m, _, month, _, num => some (m, num, month)
  | (i, cell) :: rest, m, year, month, day, num =>
    match processCell row i cell m year month day num with
    | none => none
    | some (m', num', month') => processCells row rest m' year month' day num'

/-- Embedding of handle_coefficients_pdf_row: a row whose first cell is not
numeric is skipped; otherwise the semester flag flips when the day is 1,
the month starts at 1 or 7 accordingly, and the remaining cells are
consumed. Returns the updated map and semester flag; none models the
exceptions an empty row or a malformed token would raise. -/
def handle_coefficients_pdf_row (row : List String) (m : CoeffMap) (current_year : Nat)
    (first_semester : Bool) : Option (CoeffMap × Bool) :=
  match row.head? with
  | none => none
  | some c0 =>
    if pyIsNumeric c0 then
      let day := digitsToNat c0.data
      let fs := if day = 1 then !first_semester else first_semester
      let month := if fs then 1 else 7
      match processCells row (List.enumFrom 1 (row.drop 1)) m current_year month day 0 with
      | none => none
      | some (m', _, _) => some (m', fs)
    else some (m, first_semester)

/-- Row-folding loop of fetch_coefficients over the extracted table rows,
threading the map and the semester flag. -/
def fetch_coefficients_rows : List (List String) → CoeffMap → Nat → Bool → Option (CoeffMap × Bool)
  | [], m, _, fs => some (m, fs)
  | row :: rest, m, year, fs =>
    match handle_coefficients_pdf_row row m year fs with
    | none => none
    | some (m', fs') => fetch_coefficients_rows rest m' year fs'

/-- Pure part of fetch_coefficients: fold the row handler over all rows
starting from an empty map with the semester flag False. -/
def fetch_coefficients_table (rows : List (List String)) (current_year : Nat) :
    Option (CoeffMap × Bool) :=
  fetch_coefficients_rows rows [] current_year false

/-! ## Claim-side descriptions for the extractor -/

/-- Tokens effectively consumed for one cell: the claimed description of
the empty-cell placeholder and the ragged-row repair. -/
def effCellTokens (row : List String) (i : Nat) (cell : String) : List String :=
  let coefficients := wsTokens cell
  if coefficients.isEmpty then ["0"]
  else if i = row.length - 2 ∧ coefficients.length < 2 then
    if row.getD (row.length - 1) "" = "" then coefficients ++ ["0"]
    else if row.getD (row.length - 3) "" = "" then "0" :: coefficients
    else coefficients
  else coefficients

/-- Token stream effectively consumed by a whole day row. -/
def effTokens (row : List String) : List String :=
  ((List.enumFrom 1 (row.drop 1)).map (fun p => effCellTokens row p.1 p.2)).flatten

/-- Well-formed day row for day d: the first cell is a digit string reading
d, the cells yield exactly 12 tokens (6 months of pairs) and every token
carries a value. -/
def GoodRow (d : Nat) (row : List String) : Prop :=
  pyIsNumeric (row.headD "") = true ∧
  digitsToNat (row.headD "").data = d ∧
  (effTokens row).length = 12 ∧
  ∀ t ∈ effTokens row, (pyVal? t).isSome = true

instance (d : Nat) (row : List String) : Decidable (GoodRow d row) :=
  inferInstanceAs (Decidable (pyIsNumeric (row.headD "") = true ∧
    digitsToNat (row.headD "").data = d ∧
    (effTokens row).length = 12 ∧
    ∀ t ∈ effTokens row, (pyVal? t).isSome = true))

/-- Semester flag after a row with day value d is handled. -/
def rowFlip (d : Nat) (fs : Bool) : Bool := if d = 1 then !fs else fs

/-- Starting month of a row with day value d handled in state fs. -/
def rowBase (d : Nat) (fs : Bool) : Nat := if rowFlip d fs then 1 else 7

/-- Gregorian leap-year test for the target year. -/
def isLeapYear (y : Nat) : Bool := (y % 4 == 0 && y % 100 != 0) || y % 400 == 0

/-- Number of days of a month of the target year. -/
def daysInMonth (y m : Nat) : Nat :=
  if m = 2 then (if isLeapYear y then 29 else 28)
  else if m = 4 ∨ m = 6 ∨ m = 9 ∨ m = 11 then 30
  else 31

/-- Invariant tying a coefficient map to the set P of (month, day) pairs
registered so far: every registered pair has exactly two entries, and keys
away from all registered pairs are absent. -/
def MapSpec (M : CoeffMap) (y : Nat) (P : Nat → Nat → Prop) : Prop :=
  (∀ mo d, P mo d → ∃ l, lookupCoeff M (dateKey y mo d) = some l ∧ l.length = 2) ∧
  (∀ key, (∀ mo d, P mo d → key ≠ dateKey y mo d) → lookupCoeff M key = none)

/-! ## Concrete data for the end-to-end scenario and the witnesses -/

/-- Event list of the end-to-end scenario of the spec. -/
def c4Events : List TideEvent :=
  [ { fecha := "2024-05-01", hora := "08:10", altura := (1.2 : Rat), tipo := "pleamar" },
    { fecha := "2024-05-01", hora := "14:22", altura := (0.3 : Rat), tipo := "bajamar" },
    { fecha := "2024-05-01", hora := "20:05", altura := (1.1 : Rat), tipo := "pleamar" },
    { fecha := "2024-05-02", hora := "02:00", altura := (1.3 : Rat), tipo := "bajamar" },
    { fecha := "2024-05-02", hora := "09:00", altura := (0.2 : Rat), tipo := "pleamar" } ]

/-- Coefficient table of the end-to-end scenario. -/
def c4Table : CoeffMap := [("2024-05-01", [70, 68]), ("2024-05-02", [65, 63])]

/-- Canonical well-formed PDF day row used by the witnesses: the day cell
followed by one token per half-month column. -/
def demoRow (d : Nat) : List String := toString d :: List.replicate 12 "50"

/-- Canonical semester block of 31 day rows used by the witnesses. -/
def demoRows : List (List String) := (List.range 31).map (fun k => demoRow (k + 1))

/-- Output entry list of the end-to-end scenario run. -/
def c4Output : List (String × TidesDay) :=
  (build_tides_json_for_port_month c4Events c4Table).getD []

/-- The single produced day group of the end-to-end scenario. -/
def c4Group : TidesDay := (c4Output.getD 0 ("", default)).2

/-- Small event list with integer heights used by several witnesses: one
complete 3-tide day followed by two trailing events of the next day. -/
def wEvents : List TideEvent :=
  [ { fecha := "2024-05-01", hora := "08:10", altura := 1, tipo := "pleamar" },
    { fecha := "2024-05-01", hora := "14:22", altura := 1, tipo := "bajamar" },
    { fecha := "2024-05-01", hora := "20:05", altura := 1, tipo := "pleamar" },
    { fecha := "2024-05-02", hora := "02:00", altura := 1, tipo := "bajamar" },
    { fecha := "2024-05-02", hora := "09:00", altura := 1, tipo := "pleamar" } ]

/-- Day group produced for the first day of wEvents. -/
def wDay : TidesDay :=
  { first_tide := { meters := 1, time := "08:10", coefficient := 70, high_tide := true },
    second_tide := { meters := 1, time := "14:22", coefficient := 68, high_tide := false },
    third_tide := { meters := 1, time := "20:05", coefficient := 68, high_tide := true },
    fourth_tide := none }

/-- First (complete) day block of wEvents. -/
def wBlock1 : List TideEvent := wEvents.take 3

/-- Trailing incomplete remainder of wEvents. -/
def wRest : List TideEvent := wEvents.drop 3

/-- Event list with a single 4-tide day, used by witnesses of the
fourth-tide absorption. -/
def wEvents4 : List TideEvent :=
  [ { fecha := "2024-05-01", hora := "02:10", altura := 1, tipo := "bajamar" },
    { fecha := "2024-05-01", hora := "08:20", altura := 1, tipo := "pleamar" },
    { fecha := "2024-05-01", hora := "14:30", altura := 1, tipo := "bajamar" },
    { fecha := "2024-05-01", hora := "20:40", altura := 1, tipo := "pleamar" } ]

/-- Day group produced for the single 4-tide day of wEvents4. -/
def wDay4 : TidesDay :=
  { first_tide := { meters := 1, time := "02:10", coefficient := 70, high_tide := false },
    second_tide := { meters := 1, time := "08:20", coefficient := 70, high_tide := true },
    third_tide := { meters := 1, time := "14:30", coefficient := 68, high_tide := false },
    fourth_tide := some { meters := 1, time := "20:40", coefficient := 68, high_tide := true } }

/-! ## Helper lemmas about the grouping loop -/

/-- The day builder always reports a cursor increment of 3 or 4. -/
theorem day_inc_three_or_four {index : Nat} {values : List TideEvent} {cmap : CoeffMap}
    {key : String} {day : TidesDay} {inc : Nat}
    (h : build_tides_json_for_port_day index values cmap = some (key, day, inc)) :
    inc = 3 ∨ inc = 4 := by
  unfold build_tides_json_for_port_day at h
  repeat' split at h
  all_goals simp_all

/-- Once fewer than 3 events remain the loop yields the empty emission
list, for any fuel. -/
theorem loop_stops {values : List TideEvent} {cmap : CoeffMap} {i : Nat} (fuel : Nat)
    (h : values.length ≤ i + 2) : build_tides_loop values cmap i fuel = some [] := by
  have hc : ¬ (i + 2 < values.length) := by omega
  cases fuel <;> simp [build_tides_loop, hc]

/-- Any two sufficient fuels give the same loop result. -/
theorem loop_fuel_eq {values : List TideEvent} {cmap : CoeffMap} :
    ∀ fuel₁ fuel₂ i, values.length ≤ i + fuel₁ + 2 → values.length ≤ i + fuel₂ + 2 →
      build_tides_loop values cmap i fuel₁ = build_tides_loop values cmap i fuel₂ := by
  intro fuel₁
  induction fuel₁ with
  | zero =>
    intro fuel₂ i h1 h2
    rw [loop_stops 0 (by omega), loop_stops fuel₂ (by omega)]
  | succ n ih =>
    intro fuel₂ i h1 h2
    by_cases hc : i + 2 < values.length
    · cases fuel₂ with
      | zero => omega
      | succ n2 =>
        simp only [build_tides_loop, if_pos hc]
        cases hd : build_tides_json_for_port_day i values cmap with
        | none => rfl
        | some p =>
          obtain ⟨key, day, inc⟩ := p
          rcases day_inc_three_or_four hd with h3 | h3 <;> subst h3
          · have hrec := ih n2 (i + 3) (by omega) (by omega)
            simp only [hrec]
          · have hrec := ih n2 (i + 4) (by omega) (by omega)
            simp only [hrec]
    · rw [loop_stops _ (by omega), loop_stops _ (by omega)]

/-- The annotation of an event with an unmapped date fails. -/
theorem annotate_none {cmap : CoeffMap} {e : TideEvent}
    (h : lookupCoeff cmap e.fecha = none) : annotate cmap e = none := by
  unfold annotate
  rw [h]

/-! ## Claims C10, C2, C3, C9, C4 -/

/-- C10: every iteration of the grouping loop advances the cursor by 3 or
4, so the measure length - i strictly decreases; consequently a fuel of the
event-list length already computes the loop fixpoint, i.e. the source while
loop terminates on every finite event list. -/
theorem c10_grouping_loop_terminates :
    (∀ (values : List TideEvent) (cmap : CoeffMap) (i : Nat) (key : String) (day : TidesDay)
       (inc : Nat), i + 2 < values.length →
       build_tides_json_for_port_day i values cmap = some (key, day, inc) →
       (inc = 3 ∨ inc = 4) ∧ values.length - (i + inc) < values.length - i) ∧
    (∀ (values : List TideEvent) (cmap : CoeffMap) (fuel : Nat), values.length ≤ fuel →
       build_tides_loop values cmap 0 fuel = build_tides_json_for_port_month values cmap) := by
  constructor
  · intro values cmap i key day inc hlt h
    have h34 := day_inc_three_or_four h
    exact ⟨h34, by omega⟩
  · intro values cmap fuel hf
    unfold build_tides_json_for_port_month
    exact loop_fuel_eq fuel values.length 0 (by omega) (by omega)

/-- Witness for C10 at a concrete run: the first iteration over wEvents
advances the cursor by 3 and shrinks the remaining measure. -/
theorem c10_witness :
    ((3 = 3 ∨ 3 = 4) ∧ wEvents.length - (0 + 3) < wEvents.length - 0) ∧
    build_tides_loop wEvents c4Table 0 7 = build_tides_json_for_port_month wEvents c4Table := by
  constructor
  · exact c10_grouping_loop_terminates.1 wEvents c4Table 0 "2024-05-01" wDay 3
      (by decide) (by decide)
  · exact c10_grouping_loop_terminates.2 wEvents c4Table 7 (by decide)

/-- C2: in a successfully built day group starting at the cursor, the event
at index+3 is included as fourth tide exactly when it exists and its fecha
equals the fecha of the event at the cursor; inclusion advances the cursor
by 4 and exclusion by 3. -/
theorem c2_fourth_tide_absorption {index : Nat} {values : List TideEvent} {cmap : CoeffMap}
    {key : String} {day : TidesDay} {inc : Nat}
    (h : build_tides_json_for_port_day index values cmap = some (key, day, inc)) :
    (∀ v0 v3, values[index]? = some v0 → values[index + 3]? = some v3 →
       (v3.fecha = v0.fecha → day.fourth_tide = annotate cmap v3 ∧ inc = 4) ∧
       (v3.fecha ≠ v0.fecha → day.fourth_tide = none ∧ inc = 3)) ∧
    (values[index + 3]? = none → day.fourth_tide = none ∧ inc = 3) ∧
    (day.fourth_tide.isSome = true ↔ inc = 4) := by
  unfold build_tides_json_for_port_day at h
  repeat' split at h
  all_goals simp_all
  all_goals
    (obtain ⟨h1, h2, h3⟩ := h
     subst h2
     try subst h3
     simp_all [List.getElem?_eq_none])

/-- Witness for C2 on a concrete 4-tide day: the fourth event shares the
day, is included and the cursor advances by 4. -/
theorem c2_witness :
    ((wDay4.fourth_tide = annotate c4Table (wEvents4.getD 3 default) ∧ 4 = 4) ∧
     (wDay4.fourth_tide.isSome = true ↔ 4 = 4)) := by
  have h := @c2_fourth_tide_absorption 0 wEvents4 c4Table "2024-05-01" wDay4 4 (by decide)
  refine ⟨(h.1 (wEvents4.getD 0 default) (wEvents4.getD 3 default)
    (by decide) (by decide)).1 (by decide), h.2.2⟩

/-- C3: for an event whose time string parses to hour h and a table entry
with exactly the pair of values for its date, the produced tide carries the
first value when h is below 12 and the second otherwise; the rule depends
only on the individual event. -/
theorem c3_coefficient_selection {e : TideEvent} {cmap : CoeffMap} {h : Int} {a b : Rat}
    (hh : pyHourOf e.hora = some h) (hc : lookupCoeff cmap e.fecha = some [a, b]) :
    annotate cmap e =
      some { meters := e.altura
             time := e.hora
             coefficient := if h < 12 then a else b
             high_tide := e.tipo == "pleamar" } := by
  unfold annotate build_tide_json
  rw [hc, hh]
  by_cases hlt : h < 12 <;> simp [hlt]

/-- Witness for C3 at a concrete evening event: hour 14 selects the second
table value. -/
theorem c3_witness :
    pyHourOf "14:22" = some 14 ∧
    annotate c4Table (wEvents.getD 1 default) =
      some { meters := 1
             time := "14:22"
             coefficient := if (14 : Int) < 12 then 70 else 68
             high_tide := false } := by
  refine ⟨by decide, ?_⟩
  have h := @c3_coefficient_selection (wEvents.getD 1 default) c4Table 14 70 68
    (by decide) (by decide)
  simpa using h

/-- C9: a consumed event whose date is missing from the coefficient table
makes the day builder fail, and a successfully built tide always takes its
coefficient from the table entry itself, never from a default. -/
theorem c9_missing_coefficient_is_fatal :
    (∀ (values : List TideEvent) (cmap : CoeffMap) (index k : Nat) (e : TideEvent),
       k < 3 → values[index + k]? = some e → lookupCoeff cmap e.fecha = none →
       build_tides_json_for_port_day index values cmap = none) ∧
    (∀ (v : TideEvent) (coefficients : List Rat) (t : AnnotatedTide),
       build_tide_json v coefficients = some t → t.coefficient ∈ coefficients) := by
  constructor
  · intro values cmap index k e hk he hmiss
    have hann : annotate cmap e = none := annotate_none hmiss
    interval_cases k <;>
      (try simp only [Nat.add_zero] at he
       unfold build_tides_json_for_port_day
       repeat' split
       all_goals simp_all)
  · intro v coefficients t h
    unfold build_tide_json at h
    cases hh : pyHourOf v.hora with
    | none =>
      simp only [hh] at h
      cases h
    | some hr =>
      simp only [hh] at h
      cases hc : (if hr < 12 then coefficients[0]? else coefficients[1]?) with
      | none =>
        simp only [hc] at h
        cases h
      | some c =>
        simp only [hc, Option.some.injEq] at h
        subst h
        by_cases hlt : hr < 12
        · rw [if_pos hlt] at hc
          exact List.getElem?_mem hc
        · rw [if_neg hlt] at hc
          exact List.getElem?_mem hc

/-- Witness for C9: dropping the 2024-05-02 entry from the table makes the
builder fail on the second day of wEvents, and the built first tide of
wEvents takes value 70 from its table entry. -/
theorem c9_witness :
    build_tides_json_for_port_day 3 wEvents [("2024-05-01", [70, 68])] = none ∧
    (70 : Rat) ∈ [(70 : Rat), 68] := by
  constructor
  · exact c9_missing_coefficient_is_fatal.1 wEvents [("2024-05-01", [70, 68])] 3 0
      (wEvents.getD 3 default) (by decide) (by decide) (by decide)
  · exact c9_missing_coefficient_is_fatal.2 (wEvents.getD 0 default) [70, 68]
      { meters := 1, time := "08:10", coefficient := 70, high_tide := true } (by decide)

/-! ## Block-structure lemmas for the grouping claims -/

/-- Index 3 of a triple cons is the head of the remaining list. -/
theorem cons3_getElem {tail : List TideEvent} {e0 e1 e2 : TideEvent} :
    (e0 :: e1 :: e2 :: tail)[3]? = tail.head? := by
  cases tail <;> simp

/-- On a 3-event block followed by events of another day (or nothing) the
day builder emits exactly the block group and increment 3. -/
theorem day_on_block3 (cmap : CoeffMap) {values : List TideEvent} {i : Nat}
    {e0 e1 e2 : TideEvent} {tail : List TideEvent}
    (hdrop : values.drop i = e0 :: e1 :: e2 :: tail)
    (hmis : ∀ e, tail.head? = some e → e.fecha ≠ e0.fecha) :
    build_tides_json_for_port_day i values cmap =
      (dayResult cmap [e0, e1, e2]).map (fun p => (p.1, p.2, 3)) := by
  have hj : ∀ j, values[i + j]? = (e0 :: e1 :: e2 :: tail)[j]? := by
    intro j
    rw [← List.getElem?_drop, hdrop]
  have h0 : values[i]? = some e0 := by simpa using hj 0
  have h1 : values[i + 1]? = some e1 := by simpa using hj 1
  have h2 : values[i + 2]? = some e2 := by simpa using hj 2
  have h3 : values[i + 3]? = tail.head? := by rw [hj 3, cons3_getElem]
  cases htl : tail with
  | nil =>
    rw [htl] at h3
    unfold build_tides_json_for_port_day dayResult
    simp only [h0, h1, h2, h3]
    cases annotate cmap e0 <;> cases annotate cmap e1 <;> cases annotate cmap e2 <;> simp
  | cons e3 tail2 =>
    rw [htl] at h3
    simp only [List.head?_cons] at h3
    have hne : ¬ (e3.fecha = e0.fecha) := by
      apply hmis
      rw [htl]
      rfl
    unfold build_tides_json_for_port_day dayResult
    simp only [h0, h1, h2, h3, hne, if_false]
    cases annotate cmap e0 <;> cases annotate cmap e1 <;> cases annotate cmap e2 <;> simp [hne]

/-- On a 4-event block sharing one day the day builder emits exactly the
block group and increment 4. -/
theorem day_on_block4 (cmap : CoeffMap) {values : List TideEvent} {i : Nat}
    {e0 e1 e2 e3 : TideEvent} {tail : List TideEvent}
    (hdrop : values.drop i = e0 :: e1 :: e2 :: e3 :: tail)
    (hfec : e3.fecha = e0.fecha) :
    build_tides_json_for_port_day i values cmap =
      (dayResult cmap [e0, e1, e2, e3]).map (fun p => (p.1, p.2, 4)) := by
  have hj : ∀ j, values[i + j]? = (e0 :: e1 :: e2 :: e3 :: tail)[j]? := by
    intro j
    rw [← List.getElem?_drop, hdrop]
  have h0 : values[i]? = some e0 := by simpa using hj 0
  have h1 : values[i + 1]? = some e1 := by simpa using hj 1
  have h2 : values[i + 2]? = some e2 := by simpa using hj 2
  have h3 : values[i + 3]? = some e3 := by simpa using hj 3
  unfold build_tides_json_for_port_day dayResult
  simp only [h0, h1, h2, h3, hfec, if_true]
  cases annotate cmap e0 <;> cases annotate cmap e1 <;> cases annotate cmap e2 <;>
    cases annotate cmap e3 <;> simp [hfec]

/-- The grouping loop started anywhere on a valid block decomposition of
the remaining events computes exactly the per-block results. -/
theorem loop_on_chunks (cmap : CoeffMap) :
    ∀ (blocks : List (List TideEvent)) (rest values : List TideEvent) (i fuel : Nat),
      values.drop i = blocks.flatten ++ rest → ValidChunks blocks rest →
      values.length ≤ i + fuel + 2 →
      build_tides_loop values cmap i fuel = chunksRun cmap blocks := by
  intro blocks
  induction blocks with
  | nil =>
    intro rest values i fuel hdrop hv hfuel
    have hr : rest.length < 3 := hv
    have hlen : (values.drop i).length = rest.length := by rw [hdrop]; simp
    rw [List.length_drop] at hlen
    have : build_tides_loop values cmap i fuel = some [] := loop_stops fuel (by omega)
    rw [this]
    rfl
  | cons b bs ih =>
    intro rest values i fuel hdrop hv hfuel
    obtain ⟨hsame, hlen34, hvrest⟩ := hv
    have hb3 : 3 ≤ b.length := by rcases hlen34 with h | ⟨h, _⟩ <;> omega
    have hdl : (values.drop i).length = b.length + (bs.flatten ++ rest).length := by
      rw [hdrop]; simp [List.flatten_cons]
    rw [List.length_drop] at hdl
    have hcond : i + 2 < values.length := by omega
    cases fuel with
    | zero => omega
    | succ n =>
      have hdrop2 : values.drop i = b ++ (bs.flatten ++ rest) := by
        rw [hdrop, List.flatten_cons, List.append_assoc]
      rcases hlen34 with h4 | ⟨h3, hmis⟩
      · obtain ⟨e0, e1, e2, e3, rfl⟩ : ∃ a0 a1 a2 a3, b = [a0, a1, a2, a3] := by
          match b, h4 with
          | [a0, a1, a2, a3], _ => exact ⟨a0, a1, a2, a3, rfl⟩
        have hfec : e3.fecha = e0.fecha := by
          have := hsame e3 (by simp)
          simpa [blockFecha] using this
        have hday := day_on_block4 cmap (by simpa using hdrop2) hfec
        have hrec : build_tides_loop values cmap (i + 4) n = chunksRun cmap bs := by
          apply ih rest values (i + 4) n ?_ hvrest (by omega)
          have h' := congrArg (List.drop 4) hdrop2
          rw [List.drop_drop] at h'
          simpa using h'
        simp only [build_tides_loop, if_pos hcond, hday, chunksRun]
        cases hdr : dayResult cmap [e0, e1, e2, e3] <;>
          cases hcr : chunksRun cmap bs <;>
            simp [hdr, hcr, hrec]
      · obtain ⟨e0, e1, e2, rfl⟩ : ∃ a0 a1 a2, b = [a0, a1, a2] := by
          match b, h3 with
          | [a0, a1, a2], _ => exact ⟨a0, a1, a2, rfl⟩
        have hmis' : ∀ e, (bs.flatten ++ rest).head? = some e → e.fecha ≠ e0.fecha := by
          intro e he
          have := hmis e he
          simpa [blockFecha] using this
        have hday := day_on_block3 cmap (by simpa using hdrop2) hmis'
        have hrec : build_tides_loop values cmap (i + 3) n = chunksRun cmap bs := by
          apply ih rest values (i + 3) n ?_ hvrest (by omega)
          have h' := congrArg (List.drop 3) hdrop2
          rw [List.drop_drop] at h'
          simpa using h'
        simp only [build_tides_loop, if_pos hcond, hday, chunksRun]
        cases hdr : dayResult cmap [e0, e1, e2] <;>
          cases hcr : chunksRun cmap bs <;>
            simp [hdr, hcr, hrec]

/-- A successful per-block result carries the block day as key and exactly
the in-order annotations of the block events as tides. -/
theorem dayResult_props {cmap : CoeffMap} {b : List TideEvent} {key : String} {day : TidesDay}
    (h : dayResult cmap b = some (key, day)) :
    key = blockFecha b ∧ annotateAll cmap b = some (dayTidesList day) ∧
    (dayTidesList day).length = b.length := by
  unfold dayResult at h
  repeat' split at h
  all_goals simp_all [annotateAll, dayTidesList, blockFecha]
  all_goals
    (obtain ⟨h1, h2⟩ := h
     subst h2
     simp [dayTidesList])

/-- The block-wise run yields one entry per block, keyed by the block day
and containing exactly the annotated block events. -/
theorem chunksRun_props {cmap : CoeffMap} :
    ∀ {blocks : List (List TideEvent)} {out : List (String × TidesDay)},
      chunksRun cmap blocks = some out →
      out.length = blocks.length ∧
      ∀ k, k < blocks.length →
        (out.getD k ("", default)).1 = blockFecha (blocks.getD k []) ∧
        annotateAll cmap (blocks.getD k []) = some (dayTidesList (out.getD k ("", default)).2) ∧
        (dayTidesList (out.getD k ("", default)).2).length = (blocks.getD k []).length := by
  intro blocks
  induction blocks with
  | nil =>
    intro out h
    have hout : out = [] := by simpa [chunksRun] using h.symm
    subst hout
    exact ⟨rfl, by intro k hk; simp at hk⟩
  | cons b bs ih =>
    intro out h
    unfold chunksRun at h
    cases hdr : dayResult cmap b with
    | none => rw [hdr] at h; cases h
    | some p =>
      rw [hdr] at h
      cases hcr : chunksRun cmap bs with
      | none => rw [hcr] at h; cases h
      | some rest =>
        rw [hcr] at h
        simp only [Option.some.injEq] at h
        subst h
        obtain ⟨key, day⟩ := p
        obtain ⟨hkey, hann, hlen⟩ := dayResult_props hdr
        obtain ⟨ihlen, ihk⟩ := ih hcr
        constructor
        · simp [ihlen]
        · intro k hk
          cases k with
          | zero => exact ⟨hkey, by simpa using hann, by simpa using hlen⟩
          | succ k2 =>
            have hk2 : k2 < bs.length := by simpa using hk
            simpa using ihk k2 hk2

/-- A valid decomposition remains valid after discarding the trailing
remainder. -/
theorem validChunks_nil_rest :
    ∀ {blocks : List (List TideEvent)} {rest : List TideEvent},
      ValidChunks blocks rest → ValidChunks blocks [] := by
  intro blocks
  induction blocks with
  | nil => intro rest h; exact (by simp : ([] : List TideEvent).length < 3)
  | cons b bs ih =>
    intro rest h
    obtain ⟨hsame, hl, hrest⟩ := h
    refine ⟨hsame, ?_, ih hrest⟩
    rcases hl with h4 | ⟨h3, hmis⟩
    · exact Or.inl h4
    · refine Or.inr ⟨h3, ?_⟩
      intro e he
      apply hmis e
      rcases hf : bs.flatten with _ | ⟨x, xs⟩ <;> simp_all

/-! ## Claims C1 and C5 -/

/-- C1: on any event sequence decomposing into same-day blocks of 3 or 4
events (the shape guaranteed by ascending timestamps with 3 or 4 events per
calendar day) followed by fewer than 3 trailing events, a successful run of
the grouper emits exactly one group per block, in input order, keyed by the
date of the block's first event, whose tides are exactly the in-order
annotations of exactly the block's events: the consumed prefix is
partitioned with no reordering and no duplication. -/
theorem c1_grouper_partitions_blocks {blocks : List (List TideEvent)} {rest : List TideEvent}
    {cmap : CoeffMap} {out : List (String × TidesDay)}
    (hv : ValidChunks blocks rest)
    (hrun : build_tides_json_for_port_month (blocks.flatten ++ rest) cmap = some out) :
    out.length = blocks.length ∧
    ∀ k, k < blocks.length →
      (out.getD k ("", default)).1 = blockFecha (blocks.getD k []) ∧
      annotateAll cmap (blocks.getD k []) = some (dayTidesList (out.getD k ("", default)).2) ∧
      (dayTidesList (out.getD k ("", default)).2).length = (blocks.getD k []).length := by
  have hmaster := loop_on_chunks cmap blocks rest (blocks.flatten ++ rest) 0
    (blocks.flatten ++ rest).length (by simp) hv (by omega)
  unfold build_tides_json_for_port_month at hrun
  rw [hmaster] at hrun
  exact chunksRun_props hrun

/-- C5: the loop body only runs while at least 3 unconsumed events remain,
and on any valid block decomposition a trailing remainder of fewer than 3
events leaves the emitted document exactly as if the remainder were absent:
trailing events are silently dropped. -/
theorem c5_trailing_events_dropped :
    (∀ (values : List TideEvent) (cmap : CoeffMap) (i fuel : Nat),
       values.length ≤ i + 2 → build_tides_loop values cmap i fuel = some []) ∧
    (∀ (blocks : List (List TideEvent)) (rest : List TideEvent) (cmap : CoeffMap),
       ValidChunks blocks rest →
       build_tides_json_for_port_month (blocks.flatten ++ rest) cmap =
         build_tides_json_for_port_month blocks.flatten cmap) := by
  constructor
  · intro values cmap i fuel h
    exact loop_stops fuel h
  · intro blocks rest cmap hv
    have h1 := loop_on_chunks cmap blocks rest (blocks.flatten ++ rest) 0
      (blocks.flatten ++ rest).length (by simp) hv (by omega)
    have h2 := loop_on_chunks cmap blocks [] blocks.flatten 0
      blocks.flatten.length (by simp) (validChunks_nil_rest hv) (by omega)
    unfold build_tides_json_for_port_month
    rw [h1, h2]

/-- The witness decomposition of wEvents is a valid block structure. -/
theorem wChunks_valid : ValidChunks [wBlock1] wRest := by
  refine ⟨by decide, Or.inr ⟨by decide, ?_⟩, ?_⟩
  · intro e he
    have he2 : some ({ fecha := "2024-05-02", hora := "02:00", altura := 1, tipo := "bajamar" } : TideEvent) = some e := by
      rw [← he]
      decide
    cases he2
    decide
  · show wRest.length < 3
    decide

/-- Witness for C1: the concrete run over one 3-event block with a 2-event
remainder emits exactly the block group under its day key. -/
theorem c1_witness :
    ([("2024-05-01", wDay)] : List (String × TidesDay)).length = [wBlock1].length ∧
    ∀ k, k < [wBlock1].length →
      (([("2024-05-01", wDay)].getD k ("", default)).1 = blockFecha ([wBlock1].getD k []) ∧
       annotateAll c4Table ([wBlock1].getD k []) =
         some (dayTidesList ([("2024-05-01", wDay)].getD k ("", default)).2) ∧
       (dayTidesList ([("2024-05-01", wDay)].getD k ("", default)).2).length =
         ([wBlock1].getD k []).length) := by
  exact c1_grouper_partitions_blocks wChunks_valid (by decide)

/-- Witness for C5: with only 2 events left the loop emits nothing, and the
concrete run with the 2-event remainder equals the run without it. -/
theorem c5_witness :
    build_tides_loop wEvents c4Table 3 2 = some [] ∧
    build_tides_json_for_port_month ([wBlock1].flatten ++ wRest) c4Table =
      build_tides_json_for_port_month [wBlock1].flatten c4Table := by
  constructor
  · exact c5_trailing_events_dropped.1 wEvents c4Table 3 2 (by decide)
  · exact c5_trailing_events_dropped.2 [wBlock1] wRest c4Table wChunks_valid

/-! ## Claim C4: the end-to-end scenario -/

/-- C4 counterexample: on the scenario input the run produces the single
day 2024-05-01 but its second tide has hour 14, so its coefficient is the
evening value 68, refuting the claimed sequence 70, 70, 68. -/
theorem c4_counterexample :
    (build_tides_json_for_port_month c4Events c4Table).isSome = true ∧
    c4Output.map Prod.fst = ["2024-05-01"] ∧
    c4Group.second_tide.coefficient = 68 ∧
    ¬ ((68 : Rat) = 70) := by
  refine ⟨by decide, by decide, by decide, by decide⟩

/-- C4 amended: the scenario input produces exactly one day entry,
2024-05-01, holding 3 tides with coefficients 70, 68, 68 in time order and
no fourth tide; the two 2024-05-02 events are dropped. -/
theorem c4_amended_scenario :
    c4Output.map Prod.fst = ["2024-05-01"] ∧
    c4Output.length = 1 ∧
    c4Group.first_tide.coefficient = 70 ∧
    c4Group.second_tide.coefficient = 68 ∧
    c4Group.third_tide.coefficient = 68 ∧
    c4Group.fourth_tide = none ∧
    c4Group.first_tide.time = "08:10" ∧
    c4Group.second_tide.time = "14:22" ∧
    c4Group.third_tide.time = "20:05" := by
  refine ⟨by decide, by decide, by decide, by decide, by decide, by decide, by decide,
    by decide, by decide⟩

/-! ## Key formatting and map lemmas for the coefficient extractor -/

/-- Two-digit padding yields 2 characters below 100. -/
theorem pad2_length : ∀ n, n < 100 → (pad2 n).length = 2 := by decide

set_option maxRecDepth 20000 in
/-- Two-digit padding is injective below 100. -/
theorem pad2_inj : ∀ a, a < 100 → ∀ b, b < 100 → pad2 a = pad2 b → a = b := by decide

/-- Date keys of one year are injective in month and day below 100. -/
theorem dateKey_inj {y mo d mo' d' : Nat} (hmo : mo < 100) (hd : d < 100)
    (hmo' : mo' < 100) (hd' : d' < 100) (h : dateKey y mo d = dateKey y mo' d') :
    mo = mo' ∧ d = d' := by
  unfold dateKey at h
  have hdata := congrArg String.data h
  simp only [String.data_append] at hdata
  have h1 : (toString y).data ++ ('-' :: ((pad2 mo).data ++ ('-' :: (pad2 d).data))) =
      (toString y).data ++ ('-' :: ((pad2 mo').data ++ ('-' :: (pad2 d').data))) := by
    simpa [List.append_assoc] using hdata
  have h2 := List.append_cancel_left h1
  simp only [List.cons.injEq, true_and] at h2
  have hlmo : ((pad2 mo).data).length = ((pad2 mo').data).length := by
    have e1 : ((pad2 mo).data).length = 2 := pad2_length mo hmo
    have e2 : ((pad2 mo').data).length = 2 := pad2_length mo' hmo'
    rw [e1, e2]
  obtain ⟨hmoeq, hrest⟩ := List.append_inj h2 hlmo
  simp only [List.cons.injEq, true_and] at hrest
  exact ⟨pad2_inj mo hmo mo' hmo' (String.ext hmoeq),
    pad2_inj d hd d' hd' (String.ext hrest)⟩

/-- Appending a value to a key leaves the entry of that key extended by
exactly that value. -/
theorem lookup_addCoeff_same : ∀ (m : CoeffMap) (key : String) (v : Rat),
    lookupCoeff (addCoeff m key v) key = some (((lookupCoeff m key).getD []) ++ [v]) := by
  intro m key v
  induction m with
  | nil => simp [addCoeff, lookupCoeff]
  | cons p rest ih =>
    obtain ⟨k1, vs⟩ := p
    by_cases hk : k1 = key <;> simp [addCoeff, lookupCoeff, hk, ih]

/-- Appending a value to a key leaves every other key unchanged. -/
theorem lookup_addCoeff_ne : ∀ (m : CoeffMap) (key other : String) (v : Rat),
    other ≠ key → lookupCoeff (addCoeff m key v) other = lookupCoeff m other := by
  intro m key other v hne
  induction m with
  | nil => simp [addCoeff, lookupCoeff, Ne.symm hne]
  | cons p rest ih =>
    obtain ⟨k1, vs⟩ := p
    by_cases hk : k1 = key
    · subst hk
      simp [addCoeff, lookupCoeff, Ne.symm hne]
    · by_cases ho : k1 = other <;> simp [addCoeff, lookupCoeff, hk, ho, ih, hne]

/-- Registering a token with counter 0 appends its value under the current
key and moves the counter to 1 without advancing the month. -/
theorem register_step0 {t : String} {v : Rat} (m : CoeffMap) (y mo d : Nat)
    (hv : pyVal? t = some v) :
    register_coefficients t m y mo d 0 = some (addCoeff m (dateKey y mo d) v, 1, mo) := by
  unfold register_coefficients
  rw [hv]
  simp

/-- Registering a token with counter 1 appends its value under the current
key, resets the counter and advances the month. -/
theorem register_step1 {t : String} {v : Rat} (m : CoeffMap) (y mo d : Nat)
    (hv : pyVal? t = some v) :
    register_coefficients t m y mo d 1 = some (addCoeff m (dateKey y mo d) v, 0, mo + 1) := by
  unfold register_coefficients
  rw [hv]
  simp

/-- Sequential registration splits over list concatenation. -/
theorem registerTokens_append : ∀ (ts1 ts2 : List String) (m : CoeffMap) (y mo d num : Nat),
    registerTokens (ts1 ++ ts2) m y mo d num =
      match registerTokens ts1 m y mo d num with
      | none => none
      | some q => registerTokens ts2 q.1 y q.2.2 d q.2.1 := by
  intro ts1
  induction ts1 with
  | nil => intro ts2 m y mo d num; rfl
  | cons t ts ih =>
    intro ts2 m y mo d num
    simp only [List.cons_append, registerTokens]
    cases register_coefficients t m y mo d num with
    | none => rfl
    | some q =>
      obtain ⟨m', num', mo'⟩ := q
      exact ih ts2 m' y mo' d num'

/-- Registering an even token stream from counter 0 advances the month by
one per pair, extends each of the visited date keys by exactly two entries
and leaves every other key untouched. -/
theorem registerTokens_pairs :
    ∀ (n : Nat) (ts : List String) (m : CoeffMap) (y mo d : Nat),
      mo + n < 100 → d < 100 →
      ts.length = 2 * n → (∀ t ∈ ts, (pyVal? t).isSome = true) →
      ∃ M, registerTokens ts m y mo d 0 = some (M, 0, mo + n) ∧
        (∀ key, (∀ j, j < n → key ≠ dateKey y (mo + j) d) →
           lookupCoeff M key = lookupCoeff m key) ∧
        (∀ j, j < n → ∃ l, lookupCoeff M (dateKey y (mo + j) d) = some l ∧
           l.length = ((lookupCoeff m (dateKey y (mo + j) d)).getD []).length + 2) := by
  intro n
  induction n with
  | zero =>
    intro ts m y mo d hb hd hlen hval
    have hts : ts = [] := List.length_eq_zero.mp (by omega)
    subst hts
    refine ⟨m, by simp [registerTokens], fun key hk => rfl, fun j hj => by omega⟩
  | succ n ih =>
    intro ts m y mo d hb hd hlen hval
    cases ts with
    | nil => simp at hlen
    | cons t1 ts1 =>
      cases ts1 with
      | nil => simp at hlen; omega
      | cons t2 ts' =>
        obtain ⟨v1, hv1⟩ := Option.isSome_iff_exists.mp (hval t1 (by simp))
        obtain ⟨v2, hv2⟩ := Option.isSome_iff_exists.mp (hval t2 (by simp))
        set key0 := dateKey y mo d with hkey0
        have hstep : registerTokens (t1 :: t2 :: ts') m y mo d 0 =
            registerTokens ts' (addCoeff (addCoeff m key0 v1) key0 v2) y (mo + 1) d 0 := by
          simp only [registerTokens, register_step0 m y mo d hv1,
            register_step1 (addCoeff m key0 v1) y mo d hv2]
        obtain ⟨M, hM, hunch, hpres⟩ := ih ts' (addCoeff (addCoeff m key0 v1) key0 v2) y
          (mo + 1) d (by omega) hd
          (by simp only [List.length_cons] at hlen; omega)
          (fun t ht => hval t (by simp [ht]))
        refine ⟨M, ?_, ?_, ?_⟩
        · have harith : mo + 1 + n = mo + (n + 1) := by omega
          rw [hstep, hM, harith]
        · intro key hk
          have hk0 : key ≠ key0 := by
            have := hk 0 (by omega)
            simpa using this
          have hkrest : ∀ j, j < n → key ≠ dateKey y (mo + 1 + j) d := by
            intro j hj
            have harith : mo + (j + 1) = mo + 1 + j := by omega
            have := hk (j + 1) (by omega)
            rw [harith] at this
            exact this
          rw [hunch key hkrest, lookup_addCoeff_ne _ _ _ _ hk0, lookup_addCoeff_ne _ _ _ _ hk0]
        · intro j hj
          cases j with
          | zero =>
            have hne : ∀ j2, j2 < n → key0 ≠ dateKey y (mo + 1 + j2) d := by
              intro j2 hj2 heq
              have hinj := dateKey_inj (by omega) hd (by omega) hd heq
              omega
            have hl0 := hunch key0 hne
            simp only [Nat.add_zero]
            rw [hl0, lookup_addCoeff_same, lookup_addCoeff_same]
            refine ⟨_, rfl, ?_⟩
            simp
          | succ j2 =>
            have harith : mo + (j2 + 1) = mo + 1 + j2 := by omega
            rw [harith]
            obtain ⟨l, hl, hlen2⟩ := hpres j2 (by omega)
            refine ⟨l, hl, ?_⟩
            rw [hlen2]
            have hne : dateKey y (mo + 1 + j2) d ≠ key0 := by
              intro heq
              have := dateKey_inj (by omega) hd (by omega) hd heq
              omega
            rw [lookup_addCoeff_ne _ _ _ _ hne, lookup_addCoeff_ne _ _ _ _ hne]

/-- The per-cell body of the row handler registers exactly the effective
token list of the cell: the implicit 0 of an empty cell, or the possibly
repaired split tokens. -/
theorem processCell_eq_effTokens (row : List String) (i : Nat) (cell : String)
    (m : CoeffMap) (y mo d num : Nat) :
    processCell row i cell m y mo d num =
      registerTokens (effCellTokens row i cell) m y mo d num := by
  unfold processCell effCellTokens
  cases he : (wsTokens cell).isEmpty
  · simp only [he, Bool.false_eq_true, if_false]
  · simp only [he, if_true]
    cases hr : register_coefficients "0" m y mo d num with
    | none => simp [registerTokens, hr]
    | some q =>
      obtain ⟨m', num', mo'⟩ := q
      simp [registerTokens, hr]

/-- Iterating the handler over indexed cells registers the concatenation of
their effective token lists. -/
theorem processCells_eq (row : List String) :
    ∀ (cells : List (Nat × String)) (m : CoeffMap) (y mo d num : Nat),
      processCells row cells m y mo d num =
        registerTokens ((cells.map (fun p => effCellTokens row p.1 p.2)).flatten) m y mo d num := by
  intro cells
  induction cells with
  | nil => intro m y mo d num; rfl
  | cons p rest ih =>
    intro m y mo d num
    obtain ⟨i, cell⟩ := p
    simp only [List.map_cons, List.flatten_cons]
    rw [registerTokens_append]
    show (match processCell row i cell m y mo d num with
          | none => none
          | some (m2, num2, mo2) => processCells row rest m2 y mo2 d num2) = _
    rw [processCell_eq_effTokens]
    cases registerTokens (effCellTokens row i cell) m y mo d num with
    | none => rfl
    | some q =>
      obtain ⟨m', num', mo'⟩ := q
      exact ih m' y mo' d num'

/-- On a numeric day row the handler is exactly: flip the flag on day 1,
start at month 1 or 7 according to the flag, and register the row's
effective token stream. -/
theorem handle_row_eq {row : List String} {d : Nat} (m : CoeffMap) (y : Nat) (fs : Bool)
    (hg : GoodRow d row) :
    handle_coefficients_pdf_row row m y fs =
      (registerTokens (effTokens row) m y (rowBase d fs) d 0).map
        (fun q => (q.1, rowFlip d fs)) := by
  obtain ⟨hnum, hday, hlen, hval⟩ := hg
  cases row with
  | nil => simp [pyIsNumeric] at hnum
  | cons c0 rest =>
    have hc0 : pyIsNumeric c0 = true := by simpa using hnum
    have hd0 : digitsToNat c0.data = d := by simpa using hday
    unfold handle_coefficients_pdf_row
    simp only [List.head?_cons, hc0, if_true, hd0]
    rw [processCells_eq]
    have heff : ((List.enumFrom 1 ((c0 :: rest).drop 1)).map
        (fun p => effCellTokens (c0 :: rest) p.1 p.2)).flatten = effTokens (c0 :: rest) := rfl
    have hbase : (if (if d = 1 then !fs else fs) then 1 else 7) = rowBase d fs := rfl
    rw [heff, hbase]
    cases hq : registerTokens (effTokens (c0 :: rest)) m y (rowBase d fs) d 0 with
    | none => rfl
    | some q =>
      obtain ⟨m2, num2, mo2⟩ := q
      simp [rowFlip]

/-- A well-formed day row is handled successfully: the flag is flipped on
day 1, the six keys of its semester months each gain exactly two entries
and every other key is untouched. -/
theorem handle_row_good (row : List String) (m : CoeffMap) (y d : Nat) (fs : Bool)
    (hd100 : d < 100) (hg : GoodRow d row) :
    ∃ M, handle_coefficients_pdf_row row m y fs = some (M, rowFlip d fs) ∧
      (∀ key, (∀ j, j < 6 → key ≠ dateKey y (rowBase d fs + j) d) →
         lookupCoeff M key = lookupCoeff m key) ∧
      (∀ j, j < 6 → ∃ l, lookupCoeff M (dateKey y (rowBase d fs + j) d) = some l ∧
         l.length = ((lookupCoeff m (dateKey y (rowBase d fs + j) d)).getD []).length + 2) := by
  have hbound : rowBase d fs + 6 < 100 := by unfold rowBase; split <;> omega
  obtain ⟨hnum, hday, hlen, hval⟩ := hg
  obtain ⟨M, hreg, hunch, hpres⟩ := registerTokens_pairs 6 (effTokens row) m y (rowBase d fs) d
    (by omega) hd100 (by rw [hlen]) hval
  refine ⟨M, ?_, hunch, hpres⟩
  rw [handle_row_eq m y fs ⟨hnum, hday, hlen, hval⟩, hreg]
  rfl

/-- The month count of the target year never exceeds 31 days. -/
theorem daysInMonth_le (y m : Nat) : daysInMonth y m ≤ 31 := by
  unfold daysInMonth
  split
  · split <;> omega
  · split <;> omega

/-- Handling one well-formed day row preserves the map invariant, adding
exactly the six (month, day) pairs of its semester. -/
theorem handle_row_spec (row : List String) (m : CoeffMap) (y d : Nat) (fs : Bool)
    (P : Nat → Nat → Prop)
    (hm : MapSpec m y P) (hP : ∀ mo dd, P mo dd → mo < 100 ∧ dd < 100)
    (hd100 : d < 100) (hg : GoodRow d row)
    (hdisj : ∀ mo dd, P mo dd → ¬ (rowBase d fs ≤ mo ∧ mo < rowBase d fs + 6 ∧ dd = d)) :
    ∃ M, handle_coefficients_pdf_row row m y fs = some (M, rowFlip d fs) ∧
      MapSpec M y (fun mo dd => P mo dd ∨
        (rowBase d fs ≤ mo ∧ mo < rowBase d fs + 6 ∧ dd = d)) := by
  have hbound : rowBase d fs + 6 < 100 := by unfold rowBase; split <;> omega
  obtain ⟨M, hh, hunch, hpres⟩ := handle_row_good row m y d fs hd100 hg
  obtain ⟨hmp, hma⟩ := hm
  refine ⟨M, hh, ?_, ?_⟩
  · intro mo dd hun
    rcases hun with hp | ⟨hlo, hhi, hdd⟩
    · obtain ⟨l, hl, hl2⟩ := hmp mo dd hp
      have hkey : ∀ j, j < 6 → dateKey y mo dd ≠ dateKey y (rowBase d fs + j) d := by
        intro j hj heq
        obtain ⟨hP1, hP2⟩ := hP mo dd hp
        obtain ⟨hmoe, hdde⟩ := dateKey_inj hP1 hP2 (by omega) hd100 heq
        exact hdisj mo dd hp ⟨by omega, by omega, by omega⟩
      refine ⟨l, ?_, hl2⟩
      rw [hunch (dateKey y mo dd) hkey]
      exact hl
    · subst hdd
      obtain ⟨l, hl, hl2⟩ := hpres (mo - rowBase dd fs) (by omega)
      have harith : rowBase dd fs + (mo - rowBase dd fs) = mo := by omega
      rw [harith] at hl hl2
      have hnone : lookupCoeff m (dateKey y mo dd) = none := by
        apply hma
        intro mo' dd' hp' heq
        obtain ⟨h1', h2'⟩ := hP mo' dd' hp'
        obtain ⟨hmoe, hdde⟩ := dateKey_inj (by omega) hd100 h1' h2' heq
        apply hdisj mo' dd' hp'
        refine ⟨by omega, by omega, by omega⟩
      rw [hnone] at hl2
      exact ⟨l, hl, by simpa using hl2⟩
  · intro key hk
    have hkey : ∀ j, j < 6 → key ≠ dateKey y (rowBase d fs + j) d := by
      intro j hj
      exact hk (rowBase d fs + j) d (Or.inr ⟨by omega, by omega, rfl⟩)
    rw [hunch key hkey]
    exact hma key (fun mo dd hp => hk mo dd (Or.inl hp))

/-- The row fold splits over list concatenation. -/
theorem fetch_rows_append : ∀ (xs ys : List (List String)) (m : CoeffMap) (y : Nat) (fs : Bool),
    fetch_coefficients_rows (xs ++ ys) m y fs =
      match fetch_coefficients_rows xs m y fs with
      | none => none
      | some q => fetch_coefficients_rows ys q.1 y q.2 := by
  intro xs
  induction xs with
  | nil => intro ys m y fs; rfl
  | cons row rest ih =>
    intro ys m y fs
    simp only [List.cons_append, fetch_coefficients_rows]
    cases handle_coefficients_pdf_row row m y fs with
    | none => rfl
    | some q =>
      obtain ⟨m', fs'⟩ := q
      exact ih ys m' y fs'

/-- Folding the handler over a run of well-formed day rows with ascending
days starting at 2 keeps the semester flag, and adds exactly two entries
for each (semester month, covered day) pair while leaving all other keys
untouched. -/
theorem fetch_rows_spec :
    ∀ (rows : List (List String)) (m : CoeffMap) (y k : Nat) (fs : Bool)
      (P : Nat → Nat → Prop),
      MapSpec m y P →
      (∀ mo dd, P mo dd → mo < 100 ∧ dd < 100) →
      2 ≤ k → k + rows.length ≤ 99 →
      (∀ idx, idx < rows.length → GoodRow (k + idx) (rows.getD idx [])) →
      (∀ mo dd, P mo dd →
        ¬ ((if fs then 1 else 7) ≤ mo ∧ mo < (if fs then 1 else 7) + 6 ∧
           k ≤ dd ∧ dd < k + rows.length)) →
      ∃ M, fetch_coefficients_rows rows m y fs = some (M, fs) ∧
        MapSpec M y (fun mo dd => P mo dd ∨
          ((if fs then 1 else 7) ≤ mo ∧ mo < (if fs then 1 else 7) + 6 ∧
           k ≤ dd ∧ dd < k + rows.length)) := by
  intro rows
  induction rows with
  | nil =>
    intro m y k fs P hm hP hk hub hrows hdisj
    refine ⟨m, rfl, ?_, ?_⟩
    · intro mo dd hun
      rcases hun with hp | ⟨_, _, h3, h4⟩
      · exact hm.1 mo dd hp
      · simp only [List.length_nil] at h4
        omega
    · intro key hk2
      exact hm.2 key (fun mo dd hp => hk2 mo dd (Or.inl hp))
  | cons row rest ih =>
    intro m y k fs P hm hP hk hub hrows hdisj
    have hg0 : GoodRow k row := by
      have := hrows 0 (by simp)
      simpa using this
    have hkne1 : ¬ (k = 1) := by omega
    have hflip : rowFlip k fs = fs := by simp [rowFlip, hkne1]
    have hbase : rowBase k fs = (if fs then 1 else 7) := by
      unfold rowBase
      rw [hflip]
    have hdisj0 : ∀ mo dd, P mo dd → ¬ (rowBase k fs ≤ mo ∧ mo < rowBase k fs + 6 ∧ dd = k) := by
      intro mo dd hp hc
      obtain ⟨h1c, h2c, h3c⟩ := hc
      rw [hbase] at h1c h2c
      refine hdisj mo dd hp ⟨h1c, h2c, by omega, ?_⟩
      simp only [List.length_cons]
      omega
    obtain ⟨M1, hh1, hspec1⟩ := handle_row_spec row m y k fs P hm hP (by omega) hg0 hdisj0
    rw [hflip] at hh1
    have hP1 : ∀ mo dd,
        (P mo dd ∨ (rowBase k fs ≤ mo ∧ mo < rowBase k fs + 6 ∧ dd = k)) →
        mo < 100 ∧ dd < 100 := by
      intro mo dd h
      rcases h with hp | ⟨h1, h2, h3⟩
      · exact hP mo dd hp
      · have hb : rowBase k fs + 6 < 100 := by unfold rowBase; split <;> omega
        simp only [List.length_cons] at hub
        omega
    have hrows1 : ∀ idx, idx < rest.length → GoodRow (k + 1 + idx) (rest.getD idx []) := by
      intro idx hidx
      have h := hrows (idx + 1) (by simp only [List.length_cons]; omega)
      have harith : k + (idx + 1) = k + 1 + idx := by omega
      rw [harith] at h
      simpa using h
    have hdisj1 : ∀ mo dd,
        (P mo dd ∨ (rowBase k fs ≤ mo ∧ mo < rowBase k fs + 6 ∧ dd = k)) →
        ¬ ((if fs then 1 else 7) ≤ mo ∧ mo < (if fs then 1 else 7) + 6 ∧
           k + 1 ≤ dd ∧ dd < k + 1 + rest.length) := by
      intro mo dd h hc
      obtain ⟨h1c, h2c, h3c, h4c⟩ := hc
      rcases h with hp | ⟨_, _, h3⟩
      · refine hdisj mo dd hp ⟨h1c, h2c, by omega, ?_⟩
        simp only [List.length_cons]
        omega
      · omega
    obtain ⟨M, hfr, hspecM⟩ := ih M1 y (k + 1) fs _ hspec1 hP1 (by omega)
      (by simp only [List.length_cons] at hub; omega) hrows1 hdisj1
    refine ⟨M, ?_, ?_, ?_⟩
    · simp only [fetch_coefficients_rows, hh1]
      exact hfr
    · intro mo dd hun
      apply hspecM.1 mo dd
      rcases hun with hp | ⟨h1, h2, h3, h4⟩
      · exact Or.inl (Or.inl hp)
      · by_cases hddk : dd = k
        · exact Or.inl (Or.inr ⟨by rwa [hbase], by rw [hbase]; omega, hddk⟩)
        · refine Or.inr ⟨h1, h2, by omega, ?_⟩
          simp only [List.length_cons] at h4
          omega
    · intro key hkey
      apply hspecM.2 key
      intro mo dd h
      rcases h with hP1' | ⟨h1, h2, h3, h4⟩
      · rcases hP1' with hp | ⟨h1, h2, h3⟩
        · exact hkey mo dd (Or.inl hp)
        · refine hkey mo dd (Or.inr ⟨by rwa [hbase] at h1, by rw [hbase] at h2; omega, by omega, ?_⟩)
          simp only [List.length_cons]
          omega
      · refine hkey mo dd (Or.inr ⟨h1, h2, by omega, ?_⟩)
        simp only [List.length_cons]
        omega

/-! ## Claim C6 -/

/-- C6: on a well-formed coefficient PDF layout, 31 day rows per semester
whose cells yield 12 valued tokens each, the extractor succeeds and its
table maps the key of every day 1..daysInMonth of every month 1..12 of the
target year to exactly 2 entries, and indeed every key it produces carries
exactly 2 entries. -/
theorem c6_coefficient_table_coverage (year : Nat) (rows1 rows2 : List (List String))
    (h1 : rows1.length = 31) (h2 : rows2.length = 31)
    (hg1 : ∀ idx, idx < 31 → GoodRow (idx + 1) (rows1.getD idx []))
    (hg2 : ∀ idx, idx < 31 → GoodRow (idx + 1) (rows2.getD idx [])) :
    ∃ M fs, fetch_coefficients_table (rows1 ++ rows2) year = some (M, fs) ∧
      (∀ month day, 1 ≤ month → month ≤ 12 → 1 ≤ day → day ≤ daysInMonth year month →
         ∃ l, lookupCoeff M (dateKey year month day) = some l ∧ l.length = 2) ∧
      (∀ key l, lookupCoeff M key = some l → l.length = 2) := by
  cases rows1 with
  | nil => simp at h1
  | cons r0 rest1 =>
  cases rows2 with
  | nil => simp at h2
  | cons r0b rest2 =>
  have hlen1 : rest1.length = 30 := by simp only [List.length_cons] at h1; omega
  have hlen2 : rest2.length = 30 := by simp only [List.length_cons] at h2; omega
  have hit : (if true = true then (1 : Nat) else 7) = 1 := rfl
  have hif : (if false = true then (1 : Nat) else 7) = 7 := rfl
  have hm0 : MapSpec [] year (fun _ _ => False) :=
    ⟨fun mo dd h => h.elim, fun key hk => rfl⟩
  have hg0 : GoodRow 1 r0 := by
    have := hg1 0 (by omega)
    simpa using this
  obtain ⟨M1, hh1, hspec1⟩ := handle_row_spec r0 [] year 1 false (fun _ _ => False) hm0
    (fun mo dd h => h.elim) (by omega) hg0 (fun mo dd h => h.elim)
  have hP1 : ∀ mo dd,
      (False ∨ (rowBase 1 false ≤ mo ∧ mo < rowBase 1 false + 6 ∧ dd = 1)) →
      mo < 100 ∧ dd < 100 := by
    intro mo dd h
    rcases h with h | ⟨ha, hb, hc⟩
    · exact h.elim
    · have : rowBase 1 false = 1 := rfl
      omega
  have hrows1 : ∀ idx, idx < rest1.length → GoodRow (2 + idx) (rest1.getD idx []) := by
    intro idx hidx
    have h := hg1 (idx + 1) (by omega)
    have harith : idx + 1 + 1 = 2 + idx := by omega
    rw [harith] at h
    simpa using h
  have hdisj1 : ∀ mo dd,
      (False ∨ (rowBase 1 false ≤ mo ∧ mo < rowBase 1 false + 6 ∧ dd = 1)) →
      ¬ ((if true then 1 else 7) ≤ mo ∧ mo < (if true then 1 else 7) + 6 ∧
         2 ≤ dd ∧ dd < 2 + rest1.length) := by
    intro mo dd h hc
    rcases h with h | ⟨_, _, hc3⟩
    · exact h.elim
    · omega
  obtain ⟨M2, hfr1, hspec2⟩ := fetch_rows_spec rest1 M1 year 2 true _ hspec1 hP1 (by omega)
    (by rw [hlen1]; omega) hrows1 hdisj1
  have hg0b : GoodRow 1 r0b := by
    have := hg2 0 (by omega)
    simpa using this
  have hP2 : ∀ mo dd,
      ((False ∨ (rowBase 1 false ≤ mo ∧ mo < rowBase 1 false + 6 ∧ dd = 1)) ∨
       ((if true then 1 else 7) ≤ mo ∧ mo < (if true then 1 else 7) + 6 ∧
        2 ≤ dd ∧ dd < 2 + rest1.length)) →
      mo < 100 ∧ dd < 100 := by
    intro mo dd h
    rcases h with h | ⟨ha, hb, hc, hd⟩
    · exact hP1 mo dd h
    · rw [hit] at ha hb
      omega
  have hdisj2 : ∀ mo dd,
      ((False ∨ (rowBase 1 false ≤ mo ∧ mo < rowBase 1 false + 6 ∧ dd = 1)) ∨
       ((if true then 1 else 7) ≤ mo ∧ mo < (if true then 1 else 7) + 6 ∧
        2 ≤ dd ∧ dd < 2 + rest1.length)) →
      ¬ (rowBase 1 true ≤ mo ∧ mo < rowBase 1 true + 6 ∧ dd = 1) := by
    intro mo dd h hc
    obtain ⟨hc1, hc2, hc3⟩ := hc
    have hb7 : rowBase 1 true = 7 := rfl
    rw [hb7] at hc1 hc2
    rcases h with h | ⟨ha, hb, hcc, hdd2⟩
    · rcases h with h | ⟨ha, hb, hcc⟩
      · exact h.elim
      · have hb1 : rowBase 1 false = 1 := rfl
        rw [hb1] at ha hb
        omega
    · simp only [if_true] at ha hb
      omega
  obtain ⟨M3, hh3, hspec3⟩ := handle_row_spec r0b M2 year 1 true _ hspec2 hP2 (by omega)
    hg0b hdisj2
  have hP3 : ∀ mo dd,
      (((False ∨ (rowBase 1 false ≤ mo ∧ mo < rowBase 1 false + 6 ∧ dd = 1)) ∨
        ((if true then 1 else 7) ≤ mo ∧ mo < (if true then 1 else 7) + 6 ∧
         2 ≤ dd ∧ dd < 2 + rest1.length)) ∨
       (rowBase 1 true ≤ mo ∧ mo < rowBase 1 true + 6 ∧ dd = 1)) →
      mo < 100 ∧ dd < 100 := by
    intro mo dd h
    rcases h with h | ⟨ha, hb, hc⟩
    · exact hP2 mo dd h
    · have hb7 : rowBase 1 true = 7 := rfl
      omega
  have hrows2 : ∀ idx, idx < rest2.length → GoodRow (2 + idx) (rest2.getD idx []) := by
    intro idx hidx
    have h := hg2 (idx + 1) (by omega)
    have harith : idx + 1 + 1 = 2 + idx := by omega
    rw [harith] at h
    simpa using h
  have hdisj3 : ∀ mo dd,
      (((False ∨ (rowBase 1 false ≤ mo ∧ mo < rowBase 1 false + 6 ∧ dd = 1)) ∨
        ((if true then 1 else 7) ≤ mo ∧ mo < (if true then 1 else 7) + 6 ∧
         2 ≤ dd ∧ dd < 2 + rest1.length)) ∨
       (rowBase 1 true ≤ mo ∧ mo < rowBase 1 true + 6 ∧ dd = 1)) →
      ¬ ((if false then 1 else 7) ≤ mo ∧ mo < (if false then 1 else 7) + 6 ∧
         2 ≤ dd ∧ dd < 2 + rest2.length) := by
    intro mo dd h hc
    obtain ⟨hc1, hc2, hc3, hc4⟩ := hc
    rw [hif] at hc1 hc2
    rcases h with h | ⟨ha, hb, hcc⟩
    · rcases h with h | ⟨ha, hb, hcc, hdd2⟩
      · rcases h with h | ⟨ha, hb, hcc⟩
        · exact h.elim
        · have hb1 : rowBase 1 false = 1 := rfl
          rw [hb1] at ha hb
          omega
      · rw [hit] at ha hb
        omega
    · omega
  obtain ⟨M4, hfr2, hspec4⟩ := fetch_rows_spec rest2 M3 year 2 false _ hspec3 hP3 (by omega)
    (by rw [hlen2]; omega) hrows2 hdisj3
  have hflip0 : rowFlip 1 false = true := rfl
  have hflip1 : rowFlip 1 true = false := rfl
  rw [hflip0] at hh1
  rw [hflip1] at hh3
  have hrun : fetch_coefficients_rows ((r0 :: rest1) ++ (r0b :: rest2)) [] year false =
      some (M4, false) := by
    rw [fetch_rows_append]
    have e1 : fetch_coefficients_rows (r0 :: rest1) [] year false = some (M2, true) := by
      simp only [fetch_coefficients_rows, hh1]
      exact hfr1
    rw [e1]
    simp only [fetch_coefficients_rows, hh3]
    exact hfr2
  refine ⟨M4, false, hrun, ?_, ?_⟩
  · intro month day hm1 hm12 hd1 hdm
    have hday31 : day ≤ 31 := le_trans hdm (daysInMonth_le year month)
    apply hspec4.1 month day
    by_cases hlt7 : month < 7
    · by_cases hday1 : day = 1
      · refine Or.inl (Or.inl (Or.inl (Or.inr ?_)))
        have hb1 : rowBase 1 false = 1 := rfl
        rw [hb1]
        omega
      · refine Or.inl (Or.inl (Or.inr ?_))
        rw [hit, hlen1]
        omega
    · by_cases hday1 : day = 1
      · refine Or.inl (Or.inr ?_)
        have hb7 : rowBase 1 true = 7 := rfl
        rw [hb7]
        omega
      · refine Or.inr ?_
        rw [hif, hlen2]
        omega
  · intro key l hkl
    by_cases hex : ∃ mo dd,
        ((((False ∨ (rowBase 1 false ≤ mo ∧ mo < rowBase 1 false + 6 ∧ dd = 1)) ∨
          ((if true then 1 else 7) ≤ mo ∧ mo < (if true then 1 else 7) + 6 ∧
           2 ≤ dd ∧ dd < 2 + rest1.length)) ∨
         (rowBase 1 true ≤ mo ∧ mo < rowBase 1 true + 6 ∧ dd = 1)) ∨
         ((if false then 1 else 7) ≤ mo ∧ mo < (if false then 1 else 7) + 6 ∧
          2 ≤ dd ∧ dd < 2 + rest2.length)) ∧ key = dateKey year mo dd
    · obtain ⟨mo, dd, hpd, hkeyeq⟩ := hex
      subst hkeyeq
      obtain ⟨l', hl', hlen'⟩ := hspec4.1 mo dd hpd
      rw [hl'] at hkl
      injection hkl with he
      rw [← he]
      exact hlen'
    · push_neg at hex
      have hnone : lookupCoeff M4 key = none := hspec4.2 key (fun mo dd hpd => hex mo dd hpd)
      rw [hnone] at hkl
      cases hkl

/-- Witness for C6: the canonical 31-day semester blocks with one token per
half-month cell are well formed, and the extractor output on them covers
every day of every month with exactly 2 entries. -/
theorem c6_witness :
    demoRows.length = 31 ∧
    (∀ idx, idx < 31 → GoodRow (idx + 1) (demoRows.getD idx [])) ∧
    (∃ M fs, fetch_coefficients_table (demoRows ++ demoRows) 2024 = some (M, fs) ∧
      (∀ month day, 1 ≤ month → month ≤ 12 → 1 ≤ day → day ≤ daysInMonth 2024 month →
         ∃ l, lookupCoeff M (dateKey 2024 month day) = some l ∧ l.length = 2) ∧
      (∀ key l, lookupCoeff M key = some l → l.length = 2)) := by
  refine ⟨by decide, by decide, ?_⟩
  exact c6_coefficient_table_coverage 2024 demoRows demoRows (by decide) (by decide)
    (by decide) (by decide)

/-! ## Claim C7 -/

/-- C7: the semester flag flips exactly on rows whose day cell reads 1; the
two-slot counter of register_coefficients advances the month exactly after
every second token; and a well-formed day row handled in a given flag state
registers precisely the six months of its semester, 1 to 6 after the first
flip and 7 to 12 after the next, leaving all other keys unchanged. -/
theorem c7_semester_toggle :
    (∀ (row : List String) (m M : CoeffMap) (year : Nat) (fs fs' : Bool),
       handle_coefficients_pdf_row row m year fs = some (M, fs') →
       (fs' = !fs ↔ (pyIsNumeric (row.headD "") = true ∧
          digitsToNat (row.headD "").data = 1))) ∧
    (∀ (t : String) (m M : CoeffMap) (year month day num num' month' : Nat),
       register_coefficients t m year month day num = some (M, num', month') →
       (num = 0 → num' = 1 ∧ month' = month) ∧ (num = 1 → num' = 0 ∧ month' = month + 1)) ∧
    (∀ (row : List String) (m : CoeffMap) (year d : Nat) (fs : Bool),
       d < 100 → GoodRow d row →
       ∃ M, handle_coefficients_pdf_row row m year fs = some (M, rowFlip d fs) ∧
         (∀ j, j < 6 → (lookupCoeff M (dateKey year (rowBase d fs + j) d)).isSome = true) ∧
         (∀ key, (∀ j, j < 6 → key ≠ dateKey year (rowBase d fs + j) d) →
            lookupCoeff M key = lookupCoeff m key)) := by
  refine ⟨?_, ?_, ?_⟩
  · intro row m M year fs fs' h
    cases row with
    | nil => simp [handle_coefficients_pdf_row] at h
    | cons c0 rest =>
      unfold handle_coefficients_pdf_row at h
      simp only [List.head?_cons] at h
      by_cases hnum : pyIsNumeric c0 = true
      · rw [if_pos hnum] at h
        split at h
        · cases h
        · simp only [Option.some.injEq, Prod.mk.injEq] at h
          obtain ⟨hM, hfs⟩ := h
          by_cases hd1 : digitsToNat c0.data = 1
          · simp only [List.headD_cons, hnum, hd1, if_true] at hfs ⊢
            subst hfs
            simp
          · simp only [List.headD_cons, hnum, hd1, if_false] at hfs ⊢
            subst hfs
            simp
      · rw [if_neg hnum] at h
        simp only [Option.some.injEq, Prod.mk.injEq] at h
        obtain ⟨hM, hfs⟩ := h
        subst hfs
        simp only [List.headD_cons, hnum]
        simp
  · intro t m M year month day num num' month' h
    unfold register_coefficients at h
    cases hv : pyVal? t with
    | none => rw [hv] at h; cases h
    | some v =>
      rw [hv] at h
      constructor
      · intro h0
        subst h0
        simp at h
        omega
      · intro h1
        subst h1
        simp at h
        omega
  · intro row m year d fs hd100 hg
    obtain ⟨M, hh, hunch, hpres⟩ := handle_row_good row m year d fs hd100 hg
    refine ⟨M, hh, ?_, hunch⟩
    intro j hj
    obtain ⟨l, hl, _⟩ := hpres j hj
    simp [hl]

/-- Witness for C7 on the canonical day-1 row: the flag flips from False to
True and all six first-semester month keys become present. -/
theorem c7_witness :
    GoodRow 1 (demoRow 1) ∧
    ((true = !false) ↔ (pyIsNumeric ((demoRow 1).headD "") = true ∧
       digitsToNat ((demoRow 1).headD "").data = 1)) ∧
    ∃ M, handle_coefficients_pdf_row (demoRow 1) [] 2024 false = some (M, rowFlip 1 false) ∧
      ∀ j, j < 6 → (lookupCoeff M (dateKey 2024 (rowBase 1 false + j) 1)).isSome = true := by
  have hg : GoodRow 1 (demoRow 1) := by decide
  obtain ⟨M, hh, hpres, hunch⟩ := c7_semester_toggle.2.2 (demoRow 1) [] 2024 1 false
    (by omega) hg
  refine ⟨hg, ?_, ⟨M, hh, hpres⟩⟩
  have hflip : rowFlip 1 false = true := rfl
  rw [hflip] at hh
  exact c7_semester_toggle.1 (demoRow 1) [] M 2024 false true hh

/-! ## Claim C8 -/

/-- C8: the per-cell handler registers exactly the effective tokens of each
cell; an empty cell contributes exactly the single implicit 0 token; no
position other than the second-to-last triggers the repair; and at the
second-to-last position with fewer than 2 tokens a 0 is appended when the
last cell is empty, else prepended when the cell three from the end is
empty, else nothing is changed. -/
theorem c8_ragged_row_repair :
    (∀ (row : List String) (i : Nat) (cell : String) (m : CoeffMap) (y mo d num : Nat),
       processCell row i cell m y mo d num =
         registerTokens (effCellTokens row i cell) m y mo d num) ∧
    (∀ (row : List String) (i : Nat) (cell : String),
       wsTokens cell = [] → effCellTokens row i cell = ["0"]) ∧
    (∀ (row : List String) (i : Nat) (cell : String),
       wsTokens cell ≠ [] → (i ≠ row.length - 2 ∨ 2 ≤ (wsTokens cell).length) →
       effCellTokens row i cell = wsTokens cell) ∧
    (∀ (row : List String) (i : Nat) (cell : String),
       wsTokens cell ≠ [] → i = row.length - 2 → (wsTokens cell).length < 2 →
       ((row.getD (row.length - 1) "" = "" →
           effCellTokens row i cell = wsTokens cell ++ ["0"]) ∧
        (row.getD (row.length - 1) "" ≠ "" → row.getD (row.length - 3) "" = "" →
           effCellTokens row i cell = "0" :: wsTokens cell) ∧
        (row.getD (row.length - 1) "" ≠ "" → row.getD (row.length - 3) "" ≠ "" →
           effCellTokens row i cell = wsTokens cell))) := by
  refine ⟨processCell_eq_effTokens, ?_, ?_, ?_⟩
  · intro row i cell hcempty
    unfold effCellTokens
    have he : (wsTokens cell).isEmpty = true := by simp [hcempty]
    simp [he]
  · intro row i cell hne hcond
    unfold effCellTokens
    have he : (wsTokens cell).isEmpty = false := by
      simp [List.isEmpty_iff, hne]
    have hcond' : ¬ (i = row.length - 2 ∧ (wsTokens cell).length < 2) := by
      rcases hcond with hc | hc
      · exact fun hcc => hc hcc.1
      · exact fun hcc => by omega
    simp [he, hcond']
  · intro row i cell hne heq hlt
    unfold effCellTokens
    have he : (wsTokens cell).isEmpty = false := by
      simp [List.isEmpty_iff, hne]
    have hcond : i = row.length - 2 ∧ (wsTokens cell).length < 2 := ⟨heq, hlt⟩
    refine ⟨?_, ?_, ?_⟩
    · intro hlast
      rw [List.getD_eq_getElem?_getD] at hlast
      simp [he, hcond, hlast]
    · intro hlast h3
      rw [List.getD_eq_getElem?_getD] at hlast
      rw [List.getD_eq_getElem?_getD] at h3
      simp [he, hcond, hlast, h3]
    · intro hlast h3
      rw [List.getD_eq_getElem?_getD] at hlast
      rw [List.getD_eq_getElem?_getD] at h3
      simp [he, hcond, hlast, h3]

/-- Witness for C8 on a literal 4-cell row: the second-to-last short cell
with an empty last cell gets a 0 appended, an empty cell yields the
implicit 0, and a full two-token cell is left alone. -/
theorem c8_witness :
    processCell ["1", "70 68", "55", ""] 2 "55" [] 2024 1 1 0 =
      registerTokens (effCellTokens ["1", "70 68", "55", ""] 2 "55") [] 2024 1 1 0 ∧
    effCellTokens ["1", "70 68", "55", ""] 2 "55" = ["55", "0"] ∧
    effCellTokens ["1", "70 68", "55", ""] 1 "" = ["0"] ∧
    effCellTokens ["1", "70 68", "55", ""] 1 "70 68" = ["70", "68"] := by
  refine ⟨c8_ragged_row_repair.1 ["1", "70 68", "55", ""] 2 "55" [] 2024 1 1 0, ?_, ?_, ?_⟩
  · have h := (c8_ragged_row_repair.2.2.2 ["1", "70 68", "55", ""] 2 "55"
      (by decide) (by decide) (by decide)).1 (by decide)
    rw [h]
    decide
  · exact c8_ragged_row_repair.2.1 ["1", "70 68", "55", ""] 1 "" (by decide)
  · have h := c8_ragged_row_repair.2.2.1 ["1", "70 68", "55", ""] 1 "70 68"
      (by decide) (Or.inr (by decide))
    rw [h]
    decide
